import Mathlib

/-!
# PianoRain core pipeline — verification development

Shallow embedding of the engineering core of the PianoRain repository:

* `lib/note-detector.js` — peak-picking pitch estimation (`detectNote`),
  frequency/MIDI conversion (`freqToMidi`, `midiToFreq`) and the optional
  Essentia-backed estimator (`detectNoteEnhanced`);
* `lib/midi-export.js` — the note segmentation state carried by
  `exportVideoToMidi`'s `tick` handler, the Standard MIDI File serializer
  (`writeVLQ`, `buildMidiFile`) and the offline export driving loop.

JavaScript numbers are modelled as rationals (`ℚ`).  The two transcendental
primitives the detector uses, `Math.log2` and `x ↦ Math.pow(2, x)`, are
abstract function parameters: every property proved here is independent of
their values, and a concrete instantiation can be supplied at will.
-/

namespace PianoRain

/-- JavaScript `Math.round`: round half toward positive infinity. -/
def jsRound (q : ℚ) : ℤ := ⌊q + 1 / 2⌋

/-! ## lib/note-detector.js -/

/-- Piano range lower bound (MIDI 21, A0). -/
def MIDI_MIN : ℤ := 21

/-- Piano range upper bound (MIDI 108, C8). -/
def MIDI_MAX : ℤ := 108

/-- Noise gate: minimum amplitude in dB for a bin to be considered. -/
def AMPLITUDE_THRESHOLD_DB : ℚ := -50

/-- `freqToMidi(freq)`: `Math.round(12 * Math.log2(freq / 440) + 69)`,
with `-1` for non-positive frequencies.  `log2` abstracts `Math.log2`. -/
def freqToMidi (log2 : ℚ → ℚ) (freq : ℚ) : ℤ :=
  if freq ≤ 0 then -1 else jsRound (12 * log2 (freq / 440) + 69)

/-- `midiToFreq(midi)`: `440 * Math.pow(2, (midi - 69) / 12)`.
`pow2` abstracts `x ↦ Math.pow(2, x)`. -/
def midiToFreq (pow2 : ℚ → ℚ) (midi : ℤ) : ℚ :=
  440 * pow2 (((midi : ℚ) - 69) / 12)

/-- `binHz = sampleRate / (binCount * 2)` in `detectNote`. -/
def binHzOf (binCount : ℕ) (sampleRate : ℚ) : ℚ :=
  sampleRate / ((binCount : ℚ) * 2)

/-- `binStart = Math.max(0, Math.floor(freqMin / binHz))` in `detectNote`. -/
def binStartOf (pow2 : ℚ → ℚ) (binCount : ℕ) (sampleRate : ℚ) : ℤ :=
  max 0 ⌊midiToFreq pow2 MIDI_MIN / binHzOf binCount sampleRate⌋

/-- `binEnd = Math.min(binCount - 1, Math.ceil(freqMax / binHz))` in `detectNote`. -/
def binEndOf (pow2 : ℚ → ℚ) (binCount : ℕ) (sampleRate : ℚ) : ℤ :=
  min ((binCount : ℤ) - 1) ⌈midiToFreq pow2 MIDI_MAX / binHzOf binCount sampleRate⌉

/-- The bin indices visited by the loop `for (let i = binStart; i <= binEnd; i++)`
in `detectNote` (`binStart ≥ 0` always, by construction). -/
def binRange (binStart binEnd : ℤ) : List ℕ :=
  List.range' binStart.toNat (binEnd + 1 - binStart).toNat

/-- One iteration of the peak-search loop of `detectNote`: keep the running
`(peakAmplitude, peakBin)` pair, replacing it when bin `i` is strictly louder. -/
def peakStep (freqData : List ℚ) (acc : ℚ × ℤ) (i : ℕ) : ℚ × ℤ :=
  if freqData.getD i 0 > acc.1 then (freqData.getD i 0, (i : ℤ)) else acc

/-- The peak-search loop of `detectNote` (lines 65-73): starts from
`(AMPLITUDE_THRESHOLD_DB, -1)` and scans the in-range bins in order. -/
def findPeak (freqData : List ℚ) (binStart binEnd : ℤ) : ℚ × ℤ :=
  (binRange binStart binEnd).foldl (peakStep freqData) (AMPLITUDE_THRESHOLD_DB, -1)

/-- `detectNote(freqData, sampleRate)` from `lib/note-detector.js`:
bin-range restriction, noise-gated peak picking, parabolic interpolation of
the peak, conversion to MIDI, and the final piano-range rejection. -/
def detectNote (pow2 log2 : ℚ → ℚ) (freqData : List ℚ) (sampleRate : ℚ) : ℤ :=
  let binCount : ℤ := (freqData.length : ℤ)
  let binHz := binHzOf freqData.length sampleRate
  let binStart := binStartOf pow2 freqData.length sampleRate
  let binEnd := binEndOf pow2 freqData.length sampleRate
  let peak := findPeak freqData binStart binEnd
  let peakBin := peak.2
  if peakBin < 0 then -1
  else
    let peakFreq : ℚ :=
      if 0 < peakBin ∧ peakBin < binCount - 1 then
        let alpha := freqData.getD (peakBin - 1).toNat 0
        let beta := freqData.getD peakBin.toNat 0
        let gamma := freqData.getD (peakBin + 1).toNat 0
        let denom := alpha - 2 * beta + gamma
        if denom ≠ 0 then ((peakBin : ℚ) + 0.5 * (alpha - gamma) / denom) * binHz
        else (peakBin : ℚ) * binHz
      else (peakBin : ℚ) * binHz
    let midi := freqToMidi log2 peakFreq
    if midi < MIDI_MIN ∨ midi > MIDI_MAX then -1 else midi

/-- One call to the external Essentia estimator
(`essentiaInstance.PitchYinFFT(vector, spectrumSize, sampleRate)`):
`none` models a thrown exception (caught by `detectNoteEnhanced`),
`some (pitch, pitchConfidence)` a returned result. -/
def EssentiaFn : Type := List ℚ → ℕ → ℚ → Option (ℚ × ℚ)

/-- `detectNoteEnhanced(freqData, timeData, sampleRate)`: when an Essentia
instance is loaded, query `PitchYinFFT` on the time-domain data and accept its
pitch only when `confidence > 0.5 && freq > 0` and the MIDI value is within
the piano range, returning `-1` otherwise; fall back to `detectNote` when no
instance is loaded or the call throws. -/
def detectNoteEnhanced (pow2 log2 : ℚ → ℚ) (essentiaInstance : Option EssentiaFn)
    (freqData timeData : List ℚ) (sampleRate : ℚ) : ℤ :=
  match essentiaInstance with
  | some pitchYinFFT =>
    match pitchYinFFT timeData freqData.length sampleRate with
    | some (freq, confidence) =>
      if confidence > 0.5 ∧ freq > 0 then
        let midi := freqToMidi log2 freq
        if MIDI_MIN ≤ midi ∧ midi ≤ MIDI_MAX then midi else -1
      else -1
    | none => detectNote pow2 log2 freqData sampleRate
  | none => detectNote pow2 log2 freqData sampleRate

/-! ## lib/midi-export.js — note segmentation state -/

/-- A detected note event, as pushed onto `notes` in `exportVideoToMidi`:
`{ midi, startTime, endTime }` (times in seconds). -/
structure NoteEvt where
  midi : ℤ
  startTime : ℚ
  endTime : ℚ
  deriving DecidableEq

/-- The note-segmentation state of `exportVideoToMidi`: the accumulated
`notes`, the currently sustained `currentNote` (`-1` = none), and its
`noteStartTime`. -/
structure SegState where
  notes : List NoteEvt
  currentNote : ℤ
  noteStartTime : ℚ
  deriving DecidableEq

/-- Initial segmentation state (`notes = [], currentNote = -1, noteStartTime = 0`). -/
def segInit : SegState := ⟨[], -1, 0⟩

/-- The per-sample note bookkeeping of the `tick` handler
(`lib/midi-export.js` lines 215-225): on a change of detected pitch, close the
sustained note (if any) at `currentTime`, then open the new one. -/
def observe (s : SegState) (midi : ℤ) (currentTime : ℚ) : SegState :=
  if midi ≠ s.currentNote then
    let notes' :=
      if s.currentNote ≠ -1 then
        s.notes ++ [⟨s.currentNote, s.noteStartTime, currentTime⟩]
      else s.notes
    let currentNote' := if midi ≠ -1 then midi else -1
    let noteStartTime' := if currentNote' ≠ -1 then currentTime else s.noteStartTime
    ⟨notes', currentNote', noteStartTime'⟩
  else s

/-- Iterated `observe` over a list of `(detected midi, currentTime)` samples. -/
def runSeg (s : SegState) : List (ℤ × ℚ) → SegState
  | [] => s
  | (midi, t) :: rest => runSeg (observe s midi t) rest

/-- The note-closing part of `finish()` (`lib/midi-export.js` lines 173-177):
if a note is still open, close it at `currentTime`, and return the final list. -/
def finishNotes (s : SegState) (currentTime : ℚ) : List NoteEvt :=
  if s.currentNote ≠ -1 then
    s.notes ++ [⟨s.currentNote, s.noteStartTime, currentTime⟩]
  else s.notes

/-- Number of currently open (sustained) notes held by a segmenter state:
the state has a single `currentNote` slot, occupied iff it is not `-1`. -/
def openCount (s : SegState) : ℕ := if s.currentNote ≠ -1 then 1 else 0

/-! ## lib/midi-export.js — Standard MIDI File serialization -/

/-- `TICKS_PER_QUARTER = 480`. -/
def TICKS_PER_QUARTER : ℕ := 480

/-- `BPM = 120`. -/
def BPM : ℕ := 120

/-- `TICKS_PER_SECOND = TICKS_PER_QUARTER * BPM / 60` (= 960). -/
def TICKS_PER_SECOND : ℕ := TICKS_PER_QUARTER * BPM / 60

/-- `MAX_DELTA = 0x0FFFFFFF`. -/
def MAX_DELTA : ℤ := 0x0FFFFFFF

/-- One entry of `midiEvents` in `buildMidiFile`:
`{ time, type, note, velocity }`. -/
structure MidiEvent where
  time : ℚ
  type : ℕ
  note : ℕ
  velocity : ℕ
  deriving DecidableEq

/-- Expansion of note events into note-on / note-off MIDI events
(`buildMidiFile` lines 45-50): events with `endTime <= startTime` are skipped;
`note.midi & 0x7F` is the non-negative residue of the pitch modulo 128. -/
def expandNotes (notes : List NoteEvt) : List MidiEvent :=
  notes.flatMap fun note =>
    if note.endTime ≤ note.startTime then []
    else
      [⟨note.startTime, 0x90, (note.midi.emod 128).toNat, 80⟩,
       ⟨note.endTime, 0x80, (note.midi.emod 128).toNat, 0⟩]

/-- The strict part of the sort comparator
`(a, b) => a.time - b.time || a.type - b.type` of `buildMidiFile` line 53-56:
`a` must come strictly before `b`. -/
def evLt (a b : MidiEvent) : Prop :=
  a.time < b.time ∨ (a.time = b.time ∧ a.type < b.type)

/-- The non-strict preorder induced by the comparator: time ascending,
note-off (`0x80`) before note-on (`0x90`) at equal times. -/
def evLe (a b : MidiEvent) : Prop :=
  a.time < b.time ∨ (a.time = b.time ∧ a.type ≤ b.type)

instance : DecidableRel evLt := fun a b => by unfold evLt; infer_instance

instance : DecidableRel evLe := fun a b => by unfold evLe; infer_instance

instance : IsTotal MidiEvent evLe :=
  ⟨by
    intro a b
    unfold evLe
    rcases lt_trichotomy a.time b.time with h | h | h
    · exact Or.inl (Or.inl h)
    · rcases le_total a.type b.type with ht | ht
      · exact Or.inl (Or.inr ⟨h, ht⟩)
      · exact Or.inr (Or.inr ⟨h.symm, ht⟩)
    · exact Or.inr (Or.inl h)⟩

instance : IsTrans MidiEvent evLe :=
  ⟨by
    intro a b c hab hbc
    unfold evLe at *
    rcases hab with h1 | ⟨h1, h1t⟩ <;> rcases hbc with h2 | ⟨h2, h2t⟩
    · exact Or.inl (h1.trans h2)
    · exact Or.inl (lt_of_lt_of_le h1 (le_of_eq h2))
    · exact Or.inl (lt_of_le_of_lt (le_of_eq h1) h2)
    · exact Or.inr ⟨h1.trans h2, h1t.trans h2t⟩⟩

/-- `midiEvents.sort(comparator)`: JavaScript `Array.prototype.sort` is
stable, and the stable sort of a list with respect to the total preorder
induced by a comparator is unique, so it is modelled by the (stable)
insertion sort with respect to `evLe`. -/
def sortEvents (evs : List MidiEvent) : List MidiEvent :=
  evs.insertionSort evLe

/-- The `while (value > 0)` prepending loop of `writeVLQ`: emits the higher
7-bit groups of `value`, most significant first, each with the continuation
bit `0x80` set.  The first argument is explicit fuel; the loop runs at most
`value` iterations since `value >>>= 7` strictly shrinks a positive value. -/
def vlqHigh : ℕ → ℕ → List ℕ
  | 0, _ => []
  | _ + 1, 0 => []
  | fuel + 1, value => vlqHigh fuel (value / 128) ++ [value % 128 + 128]

/-- `writeVLQ(value)`: MIDI variable-length-quantity encoding — the low
7-bit group last, preceded by the higher groups with continuation bits. -/
def writeVLQ (value : ℕ) : List ℕ :=
  vlqHigh value (value / 128) ++ [value % 128]

/-- `trackName = 'PianoRain Export'`. -/
def trackName : String := "PianoRain Export"

/-- The `charCodeAt` loop of `buildMidiFile` lines 63-66. -/
def nameBytes : List ℕ := trackName.data.map Char.toNat

/-- `usPerBeat = Math.round(60000000 / BPM)` (= 500000 for 120 BPM). -/
def usPerBeat : ℤ := jsRound (60000000 / (BPM : ℚ))

/-- The four leading meta events of the track (`buildMidiFile` lines 61-80):
track name, 4/4 time signature, tempo, program change. -/
def metaBytes : List ℕ :=
  writeVLQ 0 ++ [0xFF, 0x03] ++ writeVLQ nameBytes.length ++ nameBytes
    ++ writeVLQ 0 ++ [0xFF, 0x58, 0x04, 0x04, 0x02, 0x18, 0x08]
    ++ writeVLQ 0 ++ [0xFF, 0x51, 0x03,
         usPerBeat.toNat / 65536 % 256, usPerBeat.toNat / 256 % 256, usPerBeat.toNat % 256]
    ++ writeVLQ 0 ++ [0xC0, 0x00]

/-- `tick = Math.max(0, Math.round(ev.time * TICKS_PER_SECOND))`. -/
def tickOf (time : ℚ) : ℤ :=
  max 0 (jsRound (time * (TICKS_PER_SECOND : ℚ)))

/-- `delta = Math.min(MAX_DELTA, Math.max(0, tick - prevTick))`. -/
def deltaOf (prevTick tick : ℤ) : ℕ :=
  (min MAX_DELTA (max 0 (tick - prevTick))).toNat

/-- The delta-time emission loop of `buildMidiFile` lines 83-89: each event
becomes `writeVLQ(delta)` followed by `(type, note & 0x7F, velocity & 0x7F)`. -/
def eventBytes (prevTick : ℤ) : List MidiEvent → List ℕ
  | [] => []
  | ev :: rest =>
    writeVLQ (deltaOf prevTick (tickOf ev.time))
      ++ [ev.type, ev.note % 128, ev.velocity % 128]
      ++ eventBytes (tickOf ev.time) rest

/-- The delta-times emitted by `eventBytes`, one per event, same recursion. -/
def eventDeltas (prevTick : ℤ) : List MidiEvent → List ℕ
  | [] => []
  | ev :: rest => deltaOf prevTick (tickOf ev.time) :: eventDeltas (tickOf ev.time) rest

/-- Accumulation of the emitted delta-times back into absolute tick
positions: partial sums starting from 0. -/
def reconstructTicks (deltas : List ℕ) : List ℕ :=
  deltas.scanl (· + ·) 0

/-- End-of-track meta event (`buildMidiFile` line 92). -/
def endOfTrack : List ℕ := writeVLQ 0 ++ [0xFF, 0x2F, 0x00]

/-- The complete `trackBytes` array of `buildMidiFile`. -/
def trackBytesOf (notes : List NoteEvt) : List ℕ :=
  metaBytes ++ eventBytes 0 (sortEvents (expandNotes notes)) ++ endOfTrack

/-- Big-endian 32-bit encoding of the track chunk length. -/
def be32 (n : ℕ) : List ℕ :=
  [n / 2 ^ 24 % 256, n / 2 ^ 16 % 256, n / 2 ^ 8 % 256, n % 256]

/-- The fixed 14-byte `MThd` header chunk (`buildMidiFile` lines 95-102):
format 0, one track, 480 ticks per quarter. -/
def headerBytes : List ℕ :=
  [0x4D, 0x54, 0x68, 0x64, 0x00, 0x00, 0x00, 0x06, 0x00, 0x00, 0x00, 0x01,
   TICKS_PER_QUARTER / 256 % 256, TICKS_PER_QUARTER % 256]

/-- `buildMidiFile(notes)`: header chunk, then `MTrk`, big-endian length,
and the track bytes. -/
def buildMidiFile (notes : List NoteEvt) : List ℕ :=
  headerBytes ++ [0x4D, 0x54, 0x72, 0x6B]
    ++ be32 (trackBytesOf notes).length ++ trackBytesOf notes

/-! ## lib/midi-export.js — offline exporter -/

/-- `EXPORT_PLAYBACK_RATE = 16`. -/
def EXPORT_PLAYBACK_RATE : ℚ := 16

/-- The video-element state `exportVideoToMidi` touches:
`currentTime`, `playbackRate`, `muted`, `paused`. -/
structure VideoState where
  currentTime : ℚ
  playbackRate : ℚ
  muted : Bool
  paused : Bool
  deriving DecidableEq

/-- `restore()` (`lib/midi-export.js` lines 159-166): reset mute and rate,
pause again only if the video was originally paused, and seek back. -/
def restore (orig v : VideoState) : VideoState :=
  let v1 := { v with muted := orig.muted, playbackRate := orig.playbackRate }
  let v2 := if orig.paused then { v1 with paused := true } else v1
  { v2 with currentTime := orig.currentTime }

/-- What one `tick` of the export loop reads from its environment: the
cancellation flag, the video's reported `currentTime`, `duration` and
`ended` flag, and the pitch `detectNoteEnhanced` returns on this frame. -/
structure TickInput where
  cancelled : Bool
  currentTime : ℚ
  duration : ℚ
  ended : Bool
  midi : ℤ
  deriving DecidableEq

/-- An event the export loop reacts to: a sampling tick, or the video
element firing `error`. -/
inductive ExportEvent
  | tick (input : TickInput)
  | videoError
  deriving DecidableEq

/-- The two failure causes `exportVideoToMidi` rejects with. -/
inductive ExportErr
  | cancelled
  | videoError
  deriving DecidableEq

/-- Outcome of driving the export loop over a finite event script:
`resolved` / `rejected` carry the video state at the moment the promise is
settled; `pending` means the script ended with the export still running.
A rejection carries only its cause — no file bytes. -/
inductive ExportOutcome
  | resolved (video : VideoState) (midiData : List ℕ)
  | rejected (video : VideoState) (err : ExportErr)
  | pending (video : VideoState) (seg : SegState)
  deriving DecidableEq

/-- The `tick` handler of `exportVideoToMidi` (lines 192-231) iterated over
an event script, together with the `error` listener (line 243).  Between
ticks the video's `currentTime` advances to whatever the next tick reads;
the other fields change only through the exporter's own assignments. -/
def exportLoop (orig : VideoState) (s : SegState) (v : VideoState) :
    List ExportEvent → ExportOutcome
  | [] => .pending v s
  | .videoError :: _ => .rejected (restore orig v) .videoError
  | .tick input :: rest =>
    if input.cancelled then .rejected (restore orig v) .cancelled
    else
      let v' := { v with currentTime := input.currentTime }
      let s' := observe s input.midi input.currentTime
      if input.ended ∨ (input.duration > 0 ∧ input.currentTime ≥ input.duration) then
        .resolved (restore orig v') (buildMidiFile (finishNotes s' v'.currentTime))
      else
        exportLoop orig s' v' rest

/-- `exportVideoToMidi(video, ...)` up to its asynchronous scaffolding:
record the original state, mute, set the accelerated rate, seek to 0, start
playback on `seeked`, then run the tick loop over the event script. -/
def exportVideoToMidi (v0 : VideoState) (events : List ExportEvent) : ExportOutcome :=
  exportLoop v0 segInit
    { currentTime := 0, playbackRate := EXPORT_PLAYBACK_RATE, muted := true, paused := false }
    events

/-! ## Helper lemmas -/

/-- The final piano-range guard of `detectNote`: whatever MIDI value the
interpolated peak maps to, the returned value is `-1` or within `[21, 108]`. -/
theorem range_guard (m : ℤ) :
    (if m < MIDI_MIN ∨ m > MIDI_MAX then (-1 : ℤ) else m) = -1 ∨
      (21 ≤ (if m < MIDI_MIN ∨ m > MIDI_MAX then (-1 : ℤ) else m) ∧
        (if m < MIDI_MIN ∨ m > MIDI_MAX then (-1 : ℤ) else m) ≤ 108) := by
  split
  · exact Or.inl rfl
  · next h =>
    simp only [MIDI_MIN, MIDI_MAX] at h
    push_neg at h
    exact Or.inr ⟨h.1, h.2⟩

/-- `detectNote` returns `-1` or a pitch within the piano range: both exits
of the function are guarded. -/
theorem detectNote_absent_or_in_range (pow2 log2 : ℚ → ℚ) (fd : List ℚ) (sr : ℚ) :
    detectNote pow2 log2 fd sr = -1 ∨
      (21 ≤ detectNote pow2 log2 fd sr ∧ detectNote pow2 log2 fd sr ≤ 108) := by
  simp only [detectNote]
  split
  · exact Or.inl rfl
  · exact range_guard _

/-- The peak-search fold never decreases the running amplitude, and its
result dominates every scanned bin. -/
theorem peak_foldl_bound (fd : List ℚ) (l : List ℕ) (acc : ℚ × ℤ) :
    acc.1 ≤ (l.foldl (peakStep fd) acc).1 ∧
      ∀ i ∈ l, fd.getD i 0 ≤ (l.foldl (peakStep fd) acc).1 := by
  induction l generalizing acc with
  | nil => simp
  | cons a l ih =>
    simp only [List.foldl_cons]
    obtain ⟨h1, h2⟩ := ih (peakStep fd acc a)
    have hstep : acc.1 ≤ (peakStep fd acc a).1 := by
      unfold peakStep
      split
      · next h => exact le_of_lt h
      · exact le_refl _
    have hstepa : fd.getD a 0 ≤ (peakStep fd acc a).1 := by
      unfold peakStep
      split
      · exact le_refl _
      · next h => exact le_of_not_lt h
    refine ⟨hstep.trans h1, ?_⟩
    intro i hi
    rcases List.mem_cons.mp hi with rfl | hi
    · exact hstepa.trans h1
    · exact h2 i hi

/-- The peak-search fold either leaves the accumulator untouched or returns
the amplitude and index of a scanned bin strictly above the initial value. -/
theorem peak_foldl_provenance (fd : List ℚ) (l : List ℕ) (acc : ℚ × ℤ) :
    l.foldl (peakStep fd) acc = acc ∨
      ∃ i ∈ l, (l.foldl (peakStep fd) acc).2 = (i : ℤ) ∧
        (l.foldl (peakStep fd) acc).1 = fd.getD i 0 ∧
        acc.1 < (l.foldl (peakStep fd) acc).1 := by
  induction l generalizing acc with
  | nil => exact Or.inl rfl
  | cons a l ih =>
    simp only [List.foldl_cons]
    by_cases h : fd.getD a 0 > acc.1
    · have hstep : peakStep fd acc a = (fd.getD a 0, (a : ℤ)) := by
        unfold peakStep
        rw [if_pos h]
      rw [hstep]
      rcases ih (fd.getD a 0, (a : ℤ)) with heq | ⟨i, hi, h2, h1, hlt⟩
      · rw [heq]
        exact Or.inr ⟨a, List.mem_cons_self a l, rfl, rfl, h⟩
      · exact Or.inr ⟨i, List.mem_cons_of_mem a hi, h2, h1, lt_trans h hlt⟩
    · have hstep : peakStep fd acc a = acc := by
        unfold peakStep
        rw [if_neg h]
      rw [hstep]
      rcases ih acc with heq | ⟨i, hi, h2, h1, hlt⟩
      · exact Or.inl heq
      · exact Or.inr ⟨i, List.mem_cons_of_mem a hi, h2, h1, hlt⟩

/-! ## Claim theorems -/

/-- C9: for every input (any frequency data, time data, sample rate, and any
state of the optional Essentia estimator), both `detectNote` and
`detectNoteEnhanced` return either `-1` (absent) or an integer pitch in the
inclusive range `[21, 108]`; no other value is ever returned. -/
theorem detect_absent_or_piano_range (pow2 log2 : ℚ → ℚ) (ess : Option EssentiaFn)
    (fd td : List ℚ) (sr : ℚ) :
    (detectNote pow2 log2 fd sr = -1 ∨
      (21 ≤ detectNote pow2 log2 fd sr ∧ detectNote pow2 log2 fd sr ≤ 108))
  ∧ (detectNoteEnhanced pow2 log2 ess fd td sr = -1 ∨
      (21 ≤ detectNoteEnhanced pow2 log2 ess fd td sr ∧
        detectNoteEnhanced pow2 log2 ess fd td sr ≤ 108)) := by
  refine ⟨detectNote_absent_or_in_range pow2 log2 fd sr, ?_⟩
  match ess with
  | none => exact detectNote_absent_or_in_range pow2 log2 fd sr
  | some est =>
    simp only [detectNoteEnhanced]
    rcases hres : est td fd.length sr with _ | ⟨freq, conf⟩
    · exact detectNote_absent_or_in_range pow2 log2 fd sr
    · simp only [hres]
      split
      · split
        · next h =>
          simp only [MIDI_MIN, MIDI_MAX] at h
          exact Or.inr h
        · exact Or.inl rfl
      · exact Or.inl rfl

/-- C4: feeding the segmenter the candidate sequence `[60, 60, 62, absent, 60]`
at times `[0, 0.1, 0.2, 0.3, 0.4]` and finalizing at `0.5` yields exactly the
three events `{60, 0, 0.2}`, `{62, 0.2, 0.3}`, `{60, 0.4, 0.5}`, in order. -/
theorem segmenter_trace_example :
    finishNotes
        (runSeg segInit [((60 : ℤ), (0 : ℚ)), (60, 0.1), (62, 0.2), (-1, 0.3), (60, 0.4)])
        0.5
      = [⟨60, 0, 0.2⟩, ⟨62, 0.2, 0.3⟩, ⟨60, 0.4, 0.5⟩] := by
  norm_num [runSeg, observe, finishNotes, segInit]

/-- C1 counterexample: with the Essentia estimator available and returning
confidence `0.3 ≤ 0.5` on a frame whose bin-peak result is pitch `69`,
`detectNoteEnhanced` reports absent (`-1`) instead of falling back to the
bin-peak result of `detectNote`. -/
theorem enhanced_no_fallback_on_low_confidence :
    detectNoteEnhanced (fun _ => 1) (fun _ => 0)
        (some fun _ _ _ => some (1000, 0.3)) [-60, -10, -60, -60] [] 8000 = -1
  ∧ detectNote (fun _ => 1) (fun _ => 0) [-60, -10, -60, -60] 8000 = 69 := by
  constructor
  · simp only [detectNoteEnhanced]
    norm_num
  · have hc : ⌈(11 : ℚ) / 25⌉ = 1 := by
      rw [Int.ceil_eq_iff]
      norm_num
    have h2 : ((2 : ℤ)).toNat = 2 := rfl
    norm_num [detectNote, findPeak, binRange, binStartOf, binEndOf, binHzOf, midiToFreq,
      MIDI_MIN, MIDI_MAX, AMPLITUDE_THRESHOLD_DB, peakStep, freqToMidi, jsRound,
      List.range', List.getD, hc, h2]

/-- C1 (amended): when the Essentia estimator is available and returns a
result whose confidence does not exceed 0.5 or whose frequency is not
positive, `detectNoteEnhanced` reports absent (`-1`); the bin-peak fallback
`detectNote` is used only when the estimator is unavailable or throws. -/
theorem enhanced_low_confidence_absent (pow2 log2 : ℚ → ℚ) (est : EssentiaFn)
    (fd td : List ℚ) (sr freq conf : ℚ)
    (hres : est td fd.length sr = some (freq, conf))
    (hlow : conf ≤ 0.5 ∨ freq ≤ 0) :
    detectNoteEnhanced pow2 log2 (some est) fd td sr = -1
  ∧ (∀ est2 : EssentiaFn, est2 td fd.length sr = none →
      detectNoteEnhanced pow2 log2 (some est2) fd td sr = detectNote pow2 log2 fd sr)
  ∧ detectNoteEnhanced pow2 log2 none fd td sr = detectNote pow2 log2 fd sr := by
  refine ⟨?_, ?_, rfl⟩
  · simp only [detectNoteEnhanced, hres]
    have hng : ¬(conf > 0.5 ∧ freq > 0) := by
      rintro ⟨h1, h2⟩
      rcases hlow with h | h <;> linarith
    simp [hng]
  · intro est2 h2
    simp only [detectNoteEnhanced, h2]

/-- Witness for `enhanced_low_confidence_absent` at a concrete estimator
returning confidence `0.3` and frequency `1000`. -/
theorem enhanced_low_confidence_absent_witness :
    detectNoteEnhanced (fun _ => 1) (fun _ => 0)
        (some fun _ _ _ => some (1000, 0.3)) [-70, -70] [] 48000 = -1 := by
  exact (enhanced_low_confidence_absent (fun _ => 1) (fun _ => 0)
    (fun _ _ _ => some (1000, 0.3)) [-70, -70] [] 48000 1000 0.3 rfl
    (Or.inl (by norm_num))).1

/-- C5: for every spectral frame in which no bin of the scanned piano-range
window strictly exceeds the -50 dB noise-gate threshold, `detectNote`
returns absent (`-1`); otherwise the peak search selects a bin of maximum
magnitude in that window (the scanned window being `binRange` between
`binStartOf` and `binEndOf`, as computed by the code). -/
theorem detectNote_noise_gate (pow2 log2 : ℚ → ℚ) (fd : List ℚ) (sr : ℚ) :
    ((∀ i ∈ binRange (binStartOf pow2 fd.length sr) (binEndOf pow2 fd.length sr),
        fd.getD i 0 ≤ AMPLITUDE_THRESHOLD_DB) →
      detectNote pow2 log2 fd sr = -1)
  ∧ ∀ j ∈ binRange (binStartOf pow2 fd.length sr) (binEndOf pow2 fd.length sr),
      AMPLITUDE_THRESHOLD_DB < fd.getD j 0 →
      ∃ p : ℕ, p ∈ binRange (binStartOf pow2 fd.length sr) (binEndOf pow2 fd.length sr) ∧
        (findPeak fd (binStartOf pow2 fd.length sr) (binEndOf pow2 fd.length sr)).2 = (p : ℤ) ∧
        (findPeak fd (binStartOf pow2 fd.length sr) (binEndOf pow2 fd.length sr)).1 = fd.getD p 0 ∧
        AMPLITUDE_THRESHOLD_DB < fd.getD p 0 ∧
        ∀ k ∈ binRange (binStartOf pow2 fd.length sr) (binEndOf pow2 fd.length sr),
          fd.getD k 0 ≤ fd.getD p 0 := by
  constructor
  · intro h
    rcases peak_foldl_provenance fd
        (binRange (binStartOf pow2 fd.length sr) (binEndOf pow2 fd.length sr))
        (AMPLITUDE_THRESHOLD_DB, -1) with heq | ⟨i, hi, _, h1, hlt⟩
    · have hfp : findPeak fd (binStartOf pow2 fd.length sr) (binEndOf pow2 fd.length sr)
          = (AMPLITUDE_THRESHOLD_DB, -1) := heq
      simp only [detectNote, hfp]
      norm_num
    · exact absurd (h1 ▸ hlt) (not_lt.mpr (h i hi))
  · intro j hj hgt
    have hb := peak_foldl_bound fd
      (binRange (binStartOf pow2 fd.length sr) (binEndOf pow2 fd.length sr))
      (AMPLITUDE_THRESHOLD_DB, -1)
    rcases peak_foldl_provenance fd
        (binRange (binStartOf pow2 fd.length sr) (binEndOf pow2 fd.length sr))
        (AMPLITUDE_THRESHOLD_DB, -1) with heq | ⟨i, hi, h2, h1, hlt⟩
    · exfalso
      have hle := hb.2 j hj
      rw [heq] at hle
      exact absurd hgt (not_lt.mpr hle)
    · refine ⟨i, hi, h2, h1, ?_, ?_⟩
      · rw [← h1]
        exact hlt
      · intro k hk
        rw [← h1]
        exact hb.2 k hk

/-- Witness for `detectNote_noise_gate`: a frame whose two in-range bins are
at -60 dB is reported absent, and a frame with an in-range bin at -10 dB has
its peak found at that bin. -/
theorem detectNote_noise_gate_witness :
    detectNote (fun _ => 1) (fun _ => 0) [-60, -60, -60, -60] 8000 = -1
  ∧ ∃ p : ℕ,
      p ∈ binRange (binStartOf (fun _ => 1) 4 8000) (binEndOf (fun _ => 1) 4 8000) ∧
      (findPeak (([-60, -10, -60, -60] : List ℚ)) (binStartOf (fun _ => 1) 4 8000)
          (binEndOf (fun _ => 1) 4 8000)).2 = (p : ℤ) ∧
      (findPeak (([-60, -10, -60, -60] : List ℚ)) (binStartOf (fun _ => 1) 4 8000)
          (binEndOf (fun _ => 1) 4 8000)).1 = List.getD (([-60, -10, -60, -60] : List ℚ)) p 0 ∧
      AMPLITUDE_THRESHOLD_DB < List.getD (([-60, -10, -60, -60] : List ℚ)) p 0 ∧
      ∀ k ∈ binRange (binStartOf (fun _ => 1) 4 8000) (binEndOf (fun _ => 1) 4 8000),
        List.getD (([-60, -10, -60, -60] : List ℚ)) k 0
          ≤ List.getD (([-60, -10, -60, -60] : List ℚ)) p 0 := by
  have hc : ⌈(11 : ℚ) / 25⌉ = 1 := by
    rw [Int.ceil_eq_iff]
    norm_num
  have hbs : binStartOf (fun _ : ℚ => (1 : ℚ)) 4 8000 = 0 := by
    norm_num [binStartOf, binHzOf, midiToFreq, MIDI_MIN]
  have hbe : binEndOf (fun _ : ℚ => (1 : ℚ)) 4 8000 = 1 := by
    norm_num [binEndOf, binHzOf, midiToFreq, MIDI_MAX, hc]
  have hrange : binRange (binStartOf (fun _ : ℚ => (1 : ℚ)) 4 8000)
      (binEndOf (fun _ : ℚ => (1 : ℚ)) 4 8000) = [0, 1] := by
    rw [hbs, hbe]
    decide
  constructor
  · refine (detectNote_noise_gate (fun _ => 1) (fun _ => 0) [-60, -60, -60, -60] 8000).1 ?_
    intro i hi
    have hi4 : i ∈ binRange (binStartOf (fun _ : ℚ => (1 : ℚ)) 4 8000)
        (binEndOf (fun _ : ℚ => (1 : ℚ)) 4 8000) := hi
    rw [hrange] at hi4
    rcases List.mem_pair.mp hi4 with rfl | rfl <;>
      norm_num [AMPLITUDE_THRESHOLD_DB, List.getD]
  · have hmem : (1 : ℕ) ∈ binRange (binStartOf (fun _ : ℚ => (1 : ℚ)) 4 8000)
        (binEndOf (fun _ : ℚ => (1 : ℚ)) 4 8000) := by
      rw [hrange]
      decide
    have hgt : AMPLITUDE_THRESHOLD_DB < List.getD (([-60, -10, -60, -60] : List ℚ)) 1 0 := by
      norm_num [AMPLITUDE_THRESHOLD_DB, List.getD]
    exact (detectNote_noise_gate (fun _ => 1) (fun _ => 0) [-60, -10, -60, -60] 8000).2 1 hmem hgt

/-- Along any strictly time-ordered sample sequence, every event the
segmenter has accumulated is properly ordered (`startTime < endTime`),
provided the starting state is consistent with the upcoming times. -/
theorem runSeg_closes_after_start :
    ∀ (ts : List (ℤ × ℚ)) (s : SegState),
      List.Pairwise (· < ·) (ts.map Prod.snd) →
      (∀ e ∈ s.notes, e.startTime < e.endTime) →
      (s.currentNote ≠ -1 → ∀ p ∈ ts, s.noteStartTime < p.2) →
      ∀ e ∈ (runSeg s ts).notes, e.startTime < e.endTime := by
  intro ts
  induction ts with
  | nil =>
    intro s _ h2 _ e he
    exact h2 e he
  | cons mt rest ih =>
    obtain ⟨m, t⟩ := mt
    intro s hp h2 h3
    rw [List.map_cons, List.pairwise_cons] at hp
    obtain ⟨hhead, hrest⟩ := hp
    simp only [runSeg]
    apply ih (observe s m t) hrest
    · intro e he
      by_cases hm : m = s.currentNote
      · have hobs : observe s m t = s := by simp [observe, hm]
        rw [hobs] at he
        exact h2 e he
      · by_cases hc : s.currentNote = -1
        · have hm2 : m ≠ -1 := by
            rw [hc] at hm
            exact hm
          have hobs : (observe s m t).notes = s.notes := by simp [observe, hm, hc, hm2]
          rw [hobs] at he
          exact h2 e he
        · have hobs : (observe s m t).notes
              = s.notes ++ [⟨s.currentNote, s.noteStartTime, t⟩] := by
            simp [observe, hm, hc]
          rw [hobs, List.mem_append] at he
          rcases he with he | he
          · exact h2 e he
          · simp only [List.mem_singleton] at he
            subst he
            exact h3 hc (m, t) (List.mem_cons_self _ _)
    · intro hcn' p hp'
      by_cases hm : m = s.currentNote
      · have hobs : observe s m t = s := by simp [observe, hm]
        rw [hobs] at hcn' ⊢
        exact h3 hcn' p (List.mem_cons_of_mem _ hp')
      · by_cases hmabs : m = -1
        · subst hmabs
          have : (observe s (-1) t).currentNote = -1 := by simp [observe, hm]
          exact absurd this hcn'
        · have hnst : (observe s m t).noteStartTime = t := by simp [observe, hm, hmabs]
          rw [hnst]
          exact hhead p.2 (List.mem_map_of_mem Prod.snd hp')

/-- C2: at every observe step, the segmenter appends a closing event only
when a note was sustained, the appended event is exactly
`{sustained.pitch, sustained.startTime, atTime}`, and along any strictly
time-ordered trace every accumulated event has `endTime > startTime` — no
degenerate event is ever emitted by the segmenter. -/
theorem segmenter_close_conditions (ts : List (ℤ × ℚ))
    (h : List.Chain' (· < ·) (ts.map Prod.snd)) :
    (∀ e ∈ (runSeg segInit ts).notes, e.startTime < e.endTime)
  ∧ ∀ (s : SegState) (m : ℤ) (t : ℚ), (observe s m t).notes ≠ s.notes →
      s.currentNote ≠ -1 ∧
        (observe s m t).notes = s.notes ++ [⟨s.currentNote, s.noteStartTime, t⟩] := by
  constructor
  · exact runSeg_closes_after_start ts segInit (List.chain'_iff_pairwise.mp h)
      (by simp [segInit]) (by simp [segInit])
  · intro s m t hne
    by_cases hm : m = s.currentNote
    · exact absurd (by simp [observe, hm]) hne
    · by_cases hc : s.currentNote = -1
      · have hm2 : m ≠ -1 := by
          rw [hc] at hm
          exact hm
        exact absurd (by simp [observe, hm, hc, hm2]) hne
      · exact ⟨hc, by simp [observe, hm, hc]⟩

/-- Witness for `segmenter_close_conditions`: the event closed at time `1`
after opening pitch `60` at time `0` is properly ordered. -/
theorem segmenter_close_conditions_witness :
    (⟨60, 0, 1⟩ : NoteEvt).startTime < (⟨60, 0, 1⟩ : NoteEvt).endTime := by
  apply (segmenter_close_conditions [((60 : ℤ), (0 : ℚ)), (62, 1)]
    (by norm_num [List.chain'_cons])).1
  norm_num [runSeg, observe, segInit]

/-- Chain comparison: in a list of properly ordered events in which each
event ends no later than the next starts, start times are non-decreasing. -/
theorem chain_start_mono :
    ∀ (l : List NoteEvt),
      (∀ e ∈ l, e.startTime < e.endTime) →
      List.Chain' (fun a b => a.endTime ≤ b.startTime) l →
      List.Chain' (fun a b => a.startTime ≤ b.startTime) l := by
  intro l
  induction l with
  | nil =>
    intro _ _
    exact List.chain'_nil
  | cons a l ih =>
    intro h1 h2
    cases l with
    | nil => exact List.chain'_singleton _
    | cons b l =>
      rw [List.chain'_cons] at h2 ⊢
      refine ⟨?_, ih (fun e he => h1 e (List.mem_cons_of_mem _ he)) h2.2⟩
      exact le_of_lt (lt_of_lt_of_le (h1 a (List.mem_cons_self _ _)) h2.1)

/-- Main segmenter ordering invariant: over any strictly time-ordered sample
sequence followed by a later finalization time, the finalized event list
consists of properly ordered, chronologically chained events. -/
theorem runSeg_ordered :
    ∀ (ts : List (ℤ × ℚ)) (s : SegState) (T : ℚ),
      List.Pairwise (· < ·) (ts.map Prod.snd ++ [T]) →
      (∀ e ∈ s.notes, e.startTime < e.endTime) →
      List.Chain' (fun a b => a.endTime ≤ b.startTime) s.notes →
      (∀ e ∈ s.notes, ∀ u ∈ ts.map Prod.snd ++ [T], e.endTime ≤ u) →
      (s.currentNote ≠ -1 →
        (∀ u ∈ ts.map Prod.snd ++ [T], s.noteStartTime < u) ∧
        ∀ e ∈ s.notes, e.endTime ≤ s.noteStartTime) →
      (∀ e ∈ finishNotes (runSeg s ts) T, e.startTime < e.endTime) ∧
      List.Chain' (fun a b => a.endTime ≤ b.startTime) (finishNotes (runSeg s ts) T) := by
  intro ts
  induction ts with
  | nil =>
    intro s T _ h2 h3 _ h5
    simp only [runSeg]
    by_cases hc : s.currentNote = -1
    · have hfin : finishNotes s T = s.notes := by simp [finishNotes, hc]
      rw [hfin]
      exact ⟨h2, h3⟩
    · have hfin : finishNotes s T = s.notes ++ [⟨s.currentNote, s.noteStartTime, T⟩] := by
        simp [finishNotes, hc]
      rw [hfin]
      obtain ⟨h5a, h5b⟩ := h5 hc
      constructor
      · intro e he
        rcases List.mem_append.mp he with he | he
        · exact h2 e he
        · simp only [List.mem_singleton] at he
          subst he
          exact h5a T (by simp)
      · rw [List.chain'_append]
        refine ⟨h3, List.chain'_singleton _, ?_⟩
        intro x hx y hy
        simp only [List.head?_cons, Option.mem_def, Option.some.injEq] at hy
        subst hy
        exact h5b x (List.mem_of_mem_getLast? hx)
  | cons mt rest ih =>
    obtain ⟨m, t⟩ := mt
    intro s T hp h2 h3 h4 h5
    have hsub : ∀ u ∈ rest.map Prod.snd ++ [T], u ∈ ((m, t) :: rest).map Prod.snd ++ [T] := by
      intro u hu
      rw [List.map_cons, List.cons_append]
      exact List.mem_cons_of_mem _ hu
    have hthead : t ∈ ((m, t) :: rest).map Prod.snd ++ [T] := by
      rw [List.map_cons, List.cons_append]
      exact List.mem_cons_self _ _
    rw [List.map_cons, List.cons_append, List.pairwise_cons] at hp
    obtain ⟨hhead, hp'⟩ := hp
    simp only [runSeg]
    by_cases hm : m = s.currentNote
    · have hobs : observe s m t = s := by simp [observe, hm]
      rw [hobs]
      exact ih s T hp' h2 h3
        (fun e he u hu => h4 e he u (hsub u hu))
        (fun hcn => ⟨fun u hu => (h5 hcn).1 u (hsub u hu), (h5 hcn).2⟩)
    · by_cases hmabs : m = -1
      · subst hmabs
        have hc : s.currentNote ≠ -1 := fun h => hm h.symm
        have hobs : observe s (-1) t
            = ⟨s.notes ++ [⟨s.currentNote, s.noteStartTime, t⟩], -1, s.noteStartTime⟩ := by
          simp [observe, hm, hc]
        rw [hobs]
        obtain ⟨h5a, h5b⟩ := h5 hc
        apply ih _ T hp'
        · intro e he
          rcases List.mem_append.mp he with he | he
          · exact h2 e he
          · simp only [List.mem_singleton] at he
            subst he
            exact h5a t hthead
        · rw [List.chain'_append]
          refine ⟨h3, List.chain'_singleton _, ?_⟩
          intro x hx y hy
          simp only [List.head?_cons, Option.mem_def, Option.some.injEq] at hy
          subst hy
          exact h5b x (List.mem_of_mem_getLast? hx)
        · intro e he u hu
          rcases List.mem_append.mp he with he | he
          · exact h4 e he u (hsub u hu)
          · simp only [List.mem_singleton] at he
            subst he
            exact le_of_lt (hhead u hu)
        · intro hcn'
          exact absurd rfl hcn'
      · by_cases hc : s.currentNote = -1
        · have hobs : observe s m t = ⟨s.notes, m, t⟩ := by simp [observe, hm, hc, hmabs]
          rw [hobs]
          apply ih ⟨s.notes, m, t⟩ T hp'
          · exact h2
          · exact h3
          · intro e he u hu
            exact h4 e he u (hsub u hu)
          · intro _
            exact ⟨fun u hu => hhead u hu, fun e he => h4 e he t hthead⟩
        · have hobs : observe s m t
              = ⟨s.notes ++ [⟨s.currentNote, s.noteStartTime, t⟩], m, t⟩ := by
            simp [observe, hm, hc, hmabs]
          rw [hobs]
          obtain ⟨h5a, h5b⟩ := h5 hc
          apply ih _ T hp'
          · intro e he
            rcases List.mem_append.mp he with he | he
            · exact h2 e he
            · simp only [List.mem_singleton] at he
              subst he
              exact h5a t hthead
          · rw [List.chain'_append]
            refine ⟨h3, List.chain'_singleton _, ?_⟩
            intro x hx y hy
            simp only [List.head?_cons, Option.mem_def, Option.some.injEq] at hy
            subst hy
            exact h5b x (List.mem_of_mem_getLast? hx)
          · intro e he u hu
            rcases List.mem_append.mp he with he | he
            · exact h4 e he u (hsub u hu)
            · simp only [List.mem_singleton] at he
              subst he
              exact le_of_lt (hhead u hu)
          · intro _
            refine ⟨fun u hu => hhead u hu, ?_⟩
            intro e he
            rcases List.mem_append.mp he with he | he
            · exact h4 e he t hthead
            · simp only [List.mem_singleton] at he
              subst he
              exact le_refl t

/-- C8: at every point of any strictly time-ordered observe/finalize trace,
the segmenter holds at most one open (sustained) note, and the finalized
event sequence contains no overlap: each event ends no later than the next
starts, and start times are non-decreasing. -/
theorem segmenter_monophonic (ts : List (ℤ × ℚ)) (T : ℚ)
    (h : List.Chain' (· < ·) (ts.map Prod.snd ++ [T])) :
    openCount (runSeg segInit ts) ≤ 1
  ∧ List.Chain' (fun a b => a.endTime ≤ b.startTime) (finishNotes (runSeg segInit ts) T)
  ∧ List.Chain' (fun a b => a.startTime ≤ b.startTime) (finishNotes (runSeg segInit ts) T) := by
  obtain ⟨h1, h2⟩ := runSeg_ordered ts segInit T (List.chain'_iff_pairwise.mp h)
    (by simp [segInit]) (by simp [segInit]) (by simp [segInit]) (by simp [segInit])
  refine ⟨?_, h2, chain_start_mono _ h1 h2⟩
  unfold openCount
  split
  · exact le_refl 1
  · exact Nat.zero_le 1

/-- Witness for `segmenter_monophonic` on the trace `[(60, 0), (62, 1)]`
finalized at time `2`. -/
theorem segmenter_monophonic_witness :
    openCount (runSeg segInit [((60 : ℤ), (0 : ℚ)), (62, 1)]) ≤ 1
  ∧ List.Chain' (fun a b => a.endTime ≤ b.startTime)
      (finishNotes (runSeg segInit [((60 : ℤ), (0 : ℚ)), (62, 1)]) 2)
  ∧ List.Chain' (fun a b => a.startTime ≤ b.startTime)
      (finishNotes (runSeg segInit [((60 : ℤ), (0 : ℚ)), (62, 1)]) 2) := by
  exact segmenter_monophonic _ 2 (by norm_num [List.chain'_cons])

/-- Partial sums of natural-number deltas are non-decreasing. -/
theorem scanl_add_chain : ∀ (l : List ℕ) (init : ℕ),
    List.Chain' (· ≤ ·) (l.scanl (· + ·) init) := by
  intro l
  induction l with
  | nil =>
    intro init
    exact List.chain'_singleton _
  | cons a l ih =>
    intro init
    rw [List.scanl_cons, List.singleton_append, List.chain'_cons']
    constructor
    · intro y hy
      have hh : (List.scanl (· + ·) (init + a) l).head? = some (init + a) := by
        cases l <;> rfl
      rw [hh, Option.mem_def, Option.some.injEq] at hy
      subst hy
      exact Nat.le_add_right init a
    · exact ih (init + a)

/-- Every delta emitted by the serializer loop is clamped to `MAX_DELTA`. -/
theorem eventDeltas_le_max : ∀ (l : List MidiEvent) (prev : ℤ),
    ∀ d ∈ eventDeltas prev l, d ≤ 0x0FFFFFFF := by
  intro l
  induction l with
  | nil =>
    intro prev d hd
    simp [eventDeltas] at hd
  | cons ev l ih =>
    intro prev d hd
    simp only [eventDeltas] at hd
    rcases List.mem_cons.mp hd with rfl | hd
    · unfold deltaOf MAX_DELTA
      omega
    · exact ih (tickOf ev.time) d hd

/-- C6: the serializer sorts the expanded sub-events by time ascending with
note-end (`0x80`) before note-start (`0x90`) at equal timestamps, every
emitted delta-time lies in `[0, 0x0FFFFFFF]`, and accumulating the emitted
delta-times reconstructs a non-decreasing sequence of absolute tick
positions. -/
theorem serializer_sorted_ticks_monotone (notes : List NoteEvt) :
    List.Sorted evLe (sortEvents (expandNotes notes))
  ∧ (∀ d ∈ eventDeltas 0 (sortEvents (expandNotes notes)), d ≤ 0x0FFFFFFF)
  ∧ List.Chain' (· ≤ ·)
      (reconstructTicks (eventDeltas 0 (sortEvents (expandNotes notes)))) := by
  exact ⟨List.sorted_insertionSort evLe _,
    fun d hd => eventDeltas_le_max _ 0 d hd,
    scanl_add_chain _ 0⟩

/-- `writeVLQ` always emits at least one byte (the trailing low 7-bit group). -/
theorem writeVLQ_length_pos (v : ℕ) : 1 ≤ (writeVLQ v).length := by
  simp [writeVLQ]

/-- Each serialized event contributes at least 4 bytes: one or more VLQ
bytes plus the status/note/velocity triplet. -/
theorem eventBytes_length_ge : ∀ (l : List MidiEvent) (prev : ℤ),
    4 * l.length ≤ (eventBytes prev l).length := by
  intro l
  induction l with
  | nil =>
    intro prev
    simp [eventBytes]
  | cons ev l ih =>
    intro prev
    have h1 := writeVLQ_length_pos (deltaOf prev (tickOf ev.time))
    have h2 := ih (tickOf ev.time)
    simp only [eventBytes, List.length_append, List.length_cons, List.length_nil]
    omega

/-- Expansion produces exactly two sub-events per surviving note. -/
theorem expandNotes_length (notes : List NoteEvt) :
    (expandNotes notes).length
      = 2 * (notes.filter fun n => decide (n.startTime < n.endTime)).length := by
  induction notes with
  | nil => simp [expandNotes]
  | cons n l ih =>
    simp only [expandNotes] at ih ⊢
    rw [List.flatMap_cons]
    by_cases h : n.endTime ≤ n.startTime
    · rw [if_pos h, List.filter_cons_of_neg (by simpa using not_lt.mpr h)]
      simpa using ih
    · rw [if_neg h, List.filter_cons_of_pos (by simpa using not_le.mp h)]
      simp only [List.length_append, List.length_cons, List.length_nil]
      omega

/-- Sorting does not change the number of sub-events. -/
theorem sortEvents_length (l : List MidiEvent) : (sortEvents l).length = l.length :=
  List.length_insertionSort evLe l

/-- The four meta events occupy exactly 38 track bytes. -/
theorem metaBytes_length : metaBytes.length = 38 := by
  have h0 : writeVLQ 0 = [0] := by decide
  have hn : nameBytes.length = 16 := by decide
  have h16 : writeVLQ 16 = [16] := by decide
  simp [metaBytes, h0, h16, hn, List.length_append]

/-- The length of the serialized file is 64 plus the length of the
per-event byte block. -/
theorem buildMidiFile_length (notes : List NoteEvt) :
    (buildMidiFile notes).length
      = 64 + (eventBytes 0 (sortEvents (expandNotes notes))).length := by
  have hm := metaBytes_length
  have h0 : writeVLQ 0 = [0] := by decide
  simp [buildMidiFile, trackBytesOf, headerBytes, be32, endOfTrack, h0, hm,
    List.length_append]
  omega

/-- C10: the serialized file is strictly longer than 64 bytes exactly when
some input event has `endTime > startTime`, and each surviving event
contributes at least 8 bytes, so the `length <= 64` test detects "no notes"
exactly. -/
theorem midi_length_iff_notes (notes : List NoteEvt) :
    ((buildMidiFile notes).length > 64 ↔ ∃ n ∈ notes, n.startTime < n.endTime)
  ∧ 64 + 8 * (notes.filter fun n => decide (n.startTime < n.endTime)).length
      ≤ (buildMidiFile notes).length := by
  have hb := buildMidiFile_length notes
  have hexp := expandNotes_length notes
  have hsl := sortEvents_length (expandNotes notes)
  have hge := eventBytes_length_ge (sortEvents (expandNotes notes)) 0
  constructor
  · constructor
    · intro h
      have hL : 0 < (eventBytes 0 (sortEvents (expandNotes notes))).length := by omega
      have hne : (notes.filter fun n => decide (n.startTime < n.endTime)) ≠ [] := by
        intro h0
        have hel : sortEvents (expandNotes notes) = [] := by
          apply List.length_eq_zero.mp
          rw [hsl, hexp, h0]
          rfl
        rw [hel] at hL
        simp [eventBytes] at hL
      obtain ⟨n, hn⟩ := List.exists_mem_of_ne_nil _ hne
      have hmem := List.mem_filter.mp hn
      exact ⟨n, hmem.1, of_decide_eq_true hmem.2⟩
    · rintro ⟨n, hn, hlt⟩
      have hmem : n ∈ notes.filter fun n => decide (n.startTime < n.endTime) :=
        List.mem_filter.mpr ⟨hn, decide_eq_true hlt⟩
      have hpos : 0 < (notes.filter fun n => decide (n.startTime < n.endTime)).length :=
        List.length_pos.mpr (List.ne_nil_of_mem hmem)
      omega
  · omega

/-- Witness for `midi_length_iff_notes`: a single surviving note makes the
file strictly longer than 64 bytes. -/
theorem midi_length_iff_notes_witness : (buildMidiFile [⟨60, 0, 1⟩]).length > 64 :=
  (midi_length_iff_notes [⟨60, 0, 1⟩]).1.mpr
    ⟨⟨60, 0, 1⟩, List.mem_singleton_self _, by norm_num⟩

/-- C3: serializing an empty note list (or one where every event has
`endTime <= startTime`) yields exactly 64 bytes; serializing the single
event `{pitch 60, start 0, end 1}` yields a track whose byte stream is the
four meta events, a note-on at delta 0, a note-off at delta 960, and the
end-of-track marker. -/
theorem serialize_empty_and_single :
    (buildMidiFile []).length = 64
  ∧ (∀ notes : List NoteEvt, (∀ n ∈ notes, n.endTime ≤ n.startTime) →
      (buildMidiFile notes).length = 64)
  ∧ trackBytesOf [⟨60, 0, 1⟩]
      = metaBytes ++ (writeVLQ 0 ++ [0x90, 60, 80] ++ writeVLQ 960 ++ [0x80, 60, 0])
          ++ endOfTrack
  ∧ eventDeltas 0 (sortEvents (expandNotes [⟨60, 0, 1⟩])) = [0, 960] := by
  have hempty : ∀ notes : List NoteEvt, (∀ n ∈ notes, n.endTime ≤ n.startTime) →
      (buildMidiFile notes).length = 64 := by
    intro notes hdeg
    have hb := buildMidiFile_length notes
    have hexp : expandNotes notes = [] := by
      simp only [expandNotes]
      rw [List.flatMap_eq_nil_iff]
      intro n hn
      rw [if_pos (hdeg n hn)]
    rw [hexp] at hb
    simpa [sortEvents, List.insertionSort, eventBytes] using hb
  have hemod : ((60 : ℤ).emod 128).toNat = 60 := by decide
  have htn : ((60 : ℤ)).toNat = 60 := rfl
  have hexp1 : expandNotes [⟨60, 0, 1⟩]
      = [⟨0, 0x90, 60, 80⟩, ⟨1, 0x80, 60, 0⟩] := by
    norm_num [expandNotes, List.flatMap_cons, List.flatMap_nil, hemod, htn]
  have hsort : sortEvents (expandNotes [⟨60, 0, 1⟩])
      = [⟨0, 0x90, 60, 80⟩, ⟨1, 0x80, 60, 0⟩] := by
    rw [hexp1]
    norm_num [sortEvents, List.insertionSort, List.orderedInsert, evLe]
  have ht0 : tickOf 0 = 0 := by
    norm_num [tickOf, jsRound, TICKS_PER_SECOND, TICKS_PER_QUARTER, BPM]
  have ht1 : tickOf 1 = 960 := by
    norm_num [tickOf, jsRound, TICKS_PER_SECOND, TICKS_PER_QUARTER, BPM]
  have hd0 : deltaOf 0 0 = 0 := by decide
  have hd960 : deltaOf 0 960 = 960 := by decide
  refine ⟨hempty [] (by simp), hempty, ?_, ?_⟩
  · rw [trackBytesOf, hsort]
    norm_num [eventBytes, ht0, ht1, hd0, hd960, List.append_assoc]
  · rw [hsort]
    simp only [eventDeltas, ht0, ht1, hd0, hd960]

/-- Witness for `serialize_empty_and_single`: a single degenerate event
(`endTime = startTime`) still serializes to exactly 64 bytes. -/
theorem serialize_empty_and_single_witness :
    (buildMidiFile [⟨60, 1, 1⟩]).length = 64 := by
  apply serialize_empty_and_single.2.1
  intro n hn
  rw [List.mem_singleton] at hn
  subst hn
  exact le_refl 1

/-- `restore` returns the video to exactly its original state when the
video is currently playing (the export loop always plays before restoring):
mute and rate are reassigned, the conditional `pause()` re-establishes the
original pause flag, and the final seek restores the position. -/
theorem restore_of_unpaused (orig v : VideoState) (h : v.paused = false) :
    restore orig v = orig := by
  cases orig with
  | mk oct orate omuted opaused =>
    cases v with
    | mk vct vrate vmuted vpaused =>
      simp only at h
      subst h
      cases opaused <;> simp [restore]

/-- Through the whole export loop the video stays in the playing state the
exporter put it in, so every `resolved` / `rejected` outcome carries the
fully restored original video state. -/
theorem exportLoop_restores (orig : VideoState) :
    ∀ (events : List ExportEvent) (s : SegState) (v : VideoState), v.paused = false →
      (∀ v2 b, exportLoop orig s v events = .resolved v2 b → v2 = orig) ∧
      (∀ v2 e, exportLoop orig s v events = .rejected v2 e → v2 = orig) := by
  intro events
  induction events with
  | nil =>
    intro s v hv
    constructor <;> intro v2 x h <;> simp [exportLoop] at h
  | cons ev rest ih =>
    intro s v hv
    cases ev with
    | videoError =>
      constructor <;> intro v2 x h <;> simp only [exportLoop, ExportOutcome.rejected.injEq] at h
      · exact absurd h (by simp)
      · rw [← h.1]
        exact restore_of_unpaused orig v hv
    | tick input =>
      by_cases hc : input.cancelled
      · constructor <;> intro v2 x h <;>
          simp only [exportLoop, if_pos hc, ExportOutcome.rejected.injEq] at h
        · exact absurd h (by simp)
        · rw [← h.1]
          exact restore_of_unpaused orig v hv
      · by_cases hterm : input.ended ∨ (input.duration > 0 ∧ input.currentTime ≥ input.duration)
        · constructor <;> intro v2 x h <;>
            simp only [exportLoop, if_neg hc, if_pos hterm,
              ExportOutcome.resolved.injEq, ExportOutcome.rejected.injEq] at h
          · rw [← h.1]
            exact restore_of_unpaused orig _ hv
          · exact absurd h (by simp)
        · have hrec := ih (observe s input.midi input.currentTime)
            { v with currentTime := input.currentTime } hv
          constructor <;> intro v2 x h <;>
            rw [show exportLoop orig s v (ExportEvent.tick input :: rest)
                = exportLoop orig (observe s input.midi input.currentTime)
                    { v with currentTime := input.currentTime } rest from by
              simp only [exportLoop, if_neg hc, if_neg hterm]] at h
          · exact hrec.1 v2 x h
          · exact hrec.2 v2 x h

/-- C7: on both the success path and every failure path (source error or
cancellation), the export loop reports a video state equal to the recorded
pre-export state — playback rate, mute flag, pause state and position all
restored exactly — and a rejection carries only its cause, never file
bytes. -/
theorem exporter_restores_state (v0 : VideoState) (events : List ExportEvent) :
    (∀ v bytes, exportVideoToMidi v0 events = .resolved v bytes → v = v0)
  ∧ (∀ v err, exportVideoToMidi v0 events = .rejected v err → v = v0) := by
  unfold exportVideoToMidi
  exact exportLoop_restores v0 events segInit
    { currentTime := 0, playbackRate := EXPORT_PLAYBACK_RATE, muted := true, paused := false }
    rfl

/-- Witness for `exporter_restores_state`: a cancellation on the first tick
rejects with the original video state restored. -/
theorem exporter_restores_state_witness :
    exportVideoToMidi ⟨5, 1, false, true⟩ [.tick ⟨true, 2, 10, false, 60⟩]
        = .rejected ⟨5, 1, false, true⟩ .cancelled
  ∧ (⟨5, 1, false, true⟩ : VideoState) = ⟨5, 1, false, true⟩ := by
  have h : exportVideoToMidi ⟨5, 1, false, true⟩ [.tick ⟨true, 2, 10, false, 60⟩]
      = .rejected ⟨5, 1, false, true⟩ .cancelled := rfl
  exact ⟨h, (exporter_restores_state ⟨5, 1, false, true⟩
    [.tick ⟨true, 2, 10, false, 60⟩]).2 ⟨5, 1, false, true⟩ .cancelled h⟩

/-- Witness for `serializer_sorted_ticks_monotone`: the first delta emitted
for the single event `{60, 0, 1}` is within the clamp range. -/
theorem serializer_sorted_ticks_monotone_witness : (0 : ℕ) ≤ 0x0FFFFFFF := by
  have hemod : ((60 : ℤ).emod 128).toNat = 60 := by decide
  have htn : ((60 : ℤ)).toNat = 60 := rfl
  have hexp1 : expandNotes [⟨60, 0, 1⟩]
      = [⟨0, 0x90, 60, 80⟩, ⟨1, 0x80, 60, 0⟩] := by
    norm_num [expandNotes, List.flatMap_cons, List.flatMap_nil, hemod, htn]
  have hsort : sortEvents (expandNotes [⟨60, 0, 1⟩])
      = [⟨0, 0x90, 60, 80⟩, ⟨1, 0x80, 60, 0⟩] := by
    rw [hexp1]
    norm_num [sortEvents, List.insertionSort, List.orderedInsert, evLe]
  have ht0 : tickOf 0 = 0 := by
    norm_num [tickOf, jsRound, TICKS_PER_SECOND, TICKS_PER_QUARTER, BPM]
  have ht1 : tickOf 1 = 960 := by
    norm_num [tickOf, jsRound, TICKS_PER_SECOND, TICKS_PER_QUARTER, BPM]
  have hd0 : deltaOf 0 0 = 0 := by decide
  have hd960 : deltaOf 0 960 = 960 := by decide
  have hmem : (0 : ℕ) ∈ eventDeltas 0 (sortEvents (expandNotes [⟨60, 0, 1⟩])) := by
    rw [hsort]
    simp only [eventDeltas, ht0, ht1, hd0, hd960]
    exact List.mem_cons_self _ _
  exact (serializer_sorted_ticks_monotone [⟨60, 0, 1⟩]).2.1 0 hmem

end PianoRain
